/-
Verification of the anagrams program (anagrams.py).

Shallow embedding: Python strings become `List Char`, tuples of cut
positions become `List Nat`, Python integers arising from subtraction
become `Int`, and the `frozenset`/`defaultdict` containers become lists
and functions with the same membership behaviour.  The two enumeration
strategies are modelled in their sequential form (the `nprocs <= 1`
branch of the source); the multiprocessing branch runs the same per-item
function and only changes the order in which results are collected.
`itertools.permutations` is modelled by `List.permutations'`, which
produces exactly the permutations of the input (with multiplicity when
letters repeat), matching the source at the level of sets of results.
-/
import Mathlib

namespace Anagrams

/-- Python whitespace characters removed by `str.split()` in
`word_anagrams` (source line 337 joins the chunks of `word.split()`). -/
def is_py_space (c : Char) : Bool :=
  c = ' ' || c = '\t' || c = '\n' || c = '\r' || c = '\x0b' || c = '\x0c'

/-- Embedding of the join of `word.split()`: every whitespace character
of the word is removed. -/
def strip_whitespace (word : List Char) : List Char :=
  word.filter (fun c => !(is_py_space c))

/-- Differences between the consecutive pairwise elements of a list of
integers, as used on the augmented divider in `div_to_integer_partition`
(source lines 86-87). -/
def consecutive_diffs : List Int → List Int
  | a :: b :: rest => (b - a) :: consecutive_diffs (b :: rest)
  | _ => []

/-- Embedding of `div_to_integer_partition` (source lines 58-89): the
divider is augmented with 0 in front and the word length at the back,
and the consecutive differences are returned.  Positions are natural
numbers; the differences live in `Int` because Python subtraction is
over unbounded signed integers. -/
def div_to_integer_partition (divider : List Nat) (word_length : Nat) : List Int :=
  consecutive_diffs
    ((0 : Int) :: (divider.map (fun (d : Nat) => (d : Int)) ++ [(word_length : Int)]))

/-- Embedding of `itertools.product(*bins)`: all ways of picking one
element from each bin, first coordinate varying slowest. -/
def pyProduct {α : Type} : List (List α) → List (List α)
  | [] => [[]]
  | b :: bs => b.flatMap (fun x => (pyProduct bs).map (fun t => x :: t))

/-- Embedding of `ip_to_word_partitions` (source lines 91-106): one
candidate word per part length, via the Cartesian product of the
per-length buckets.  The `defaultdict` of buckets is modelled as a
function from `Int` (the partition entries) to lists of words. -/
def ip_to_word_partitions (integer_partition : List Int)
    (word_list_by_length : Int → List (List Char)) : List (List (List Char)) :=
  pyProduct (integer_partition.map word_list_by_length)

/-- Embedding of `wp_to_comparable_form` (source lines 108-123):
concatenate the words of the partition and sort the characters
(Python `sorted` orders characters by code point, which is the `Char`
order). -/
def wp_to_comparable_form (word_partition : List (List Char)) : List Char :=
  List.insertionSort (· ≤ ·) word_partition.flatten

/-- Slices of `word` at the cut positions `prev, d1, d2, ..., dk, end`:
the loop body of `dividers_to_word_partitions` (source lines 139-147)
produces `word[:d1], word[d1:d2], ..., word[dk:]`, and for the
0-divider the single slice `[word]`; here `prev` is the left end of the
next slice, starting at 0. -/
def slice_parts (word : List Char) (prev : Nat) : List Nat → List (List Char)
  | [] => [word.drop prev]
  | d :: ds => (word.take d).drop prev :: slice_parts word d ds

/-- Embedding of `dividers_to_word_partitions` (source lines 125-151):
one word partition per divider, by slicing the word at the cut
positions. -/
def dividers_to_word_partitions (word : List Char) (dividers : List (List Nat)) :
    List (List (List Char)) :=
  dividers.map (fun div => slice_parts word 0 div)

/-- Embedding of `ordered_word_anagrams` (source lines 153-169): keep
the word partitions all of whose words are in the word list set
(`word_list_set.issuperset(wp)`). -/
def ordered_word_anagrams (word : List Char) (word_list_set : List (List Char))
    (dividers : List (List Nat)) : List (List (List Char)) :=
  (dividers_to_word_partitions word dividers).filter
    (fun wp => wp.all (fun w => decide (w ∈ word_list_set)))

/-- Embedding of `div_to_anagrams` (source lines 171-202): the word
partitions generated from the buckets along the integer partition of
the divider, filtered down to those whose comparable form equals the
precomputed comparable form of the word. -/
def div_to_anagrams (divider : List Nat) (word_list_by_length : Int → List (List Char))
    (word_length : Nat) (comparable_form_of_word : List Char) : List (List (List Char)) :=
  (ip_to_word_partitions (div_to_integer_partition divider word_length)
      word_list_by_length).filter
    (fun wp => decide (wp_to_comparable_form wp = comparable_form_of_word))

/-- Embedding of the set of joined tuples of `permutations(word, i)`
built in `reduced_word_list` (source line 218): all orderings of all
choices of `i` positions of the word, i.e. the permutations of the
length-`i` sublists. -/
def arrangements (word : List Char) (i : Nat) : List (List Char) :=
  (List.sublistsLen i word).flatMap List.permutations'

/-- Embedding of `reduced_word_list` (source lines 204-221): for each
length `i` from 1 to `len(word) - 1`, the intersection of the length-`i`
arrangements of the word with the word list; the `frozenset` result is
modelled by deduplicating each block. -/
def reduced_word_list (word : List Char) (word_list : List (List Char)) :
    List (List Char) :=
  (List.range' 1 (word.length - 1)).flatMap
    (fun i => ((arrangements word i).filter (fun s => decide (s ∈ word_list))).dedup)

/-- Embedding of the `word_list_by_length` buckets built in
`anagrams_word_list_centric` (source lines 292-294): a `defaultdict`
sending a length to the words of the set having that length (empty for
lengths that do not occur, including negative keys). -/
def word_list_by_length (word_list_set : List (List Char)) (j : Int) :
    List (List Char) :=
  word_list_set.filter (fun w => decide ((w.length : Int) = j))

/-- Embedding of `anagrams_word_centric` (source lines 223-261), in its
sequential `nprocs <= 1` form: for every permutation of the word, the
ordered word anagrams over the given dividers, flattened. -/
def anagrams_word_centric (word : List Char) (word_list_set : List (List Char))
    (dividers : List (List Nat)) : List (List (List Char)) :=
  word.permutations'.flatMap (fun wp => ordered_word_anagrams wp word_list_set dividers)

/-- Embedding of `anagrams_word_list_centric` (source lines 263-311), in
its sequential `nprocs <= 1` form: for every divider, the anagrams built
from the length buckets of the word list set, flattened.  The comparable
form of the word and its length are precomputed as in the source. -/
def anagrams_word_list_centric (word : List Char) (word_list_set : List (List Char))
    (dividers : List (List Nat)) : List (List (List Char)) :=
  dividers.flatMap
    (fun d => div_to_anagrams d (word_list_by_length word_list_set) word.length
        (wp_to_comparable_form [word]))

/-- Embedding of the divider enumeration inside `word_anagrams` (source
lines 346-347): for each `k < len(word)`, the k-combinations of
`range(1, len(word))`, i.e. the length-`k` sublists of `[1, ..., L-1]`. -/
def k_divider_sets (word_length : Nat) : List (List (List Nat)) :=
  (List.range word_length).map
    (fun k => List.sublistsLen k (List.range' 1 (word_length - 1)))

/-- Embedding of the flattened divider tuple of `word_anagrams` (source
line 350). -/
def word_dividers (word_length : Nat) : List (List Nat) :=
  (k_divider_sets word_length).flatten

/-- Embedding of `word_anagrams` (source lines 313-359): strip
whitespace from the word, reduce the word list, enumerate the dividers,
and dispatch on the method name; an unrecognized method name raises
`KeyError` in the source, modelled as `none`. -/
def word_anagrams (word : List Char) (word_list : List (List Char)) (method : String) :
    Option (List (List (List Char))) :=
  let w := strip_whitespace word
  let word_list_set := reduced_word_list w word_list
  let dividers := word_dividers w.length
  if method = "word_centric" then
    some (anagrams_word_centric w word_list_set dividers)
  else if method = "word_list_centric" then
    some (anagrams_word_list_centric w word_list_set dividers)
  else
    none

/-- The worked example word of the specification. -/
def eat_word : List Char := "eat".toList

/-- The worked example dictionary of the specification. -/
def eat_dict : List (List Char) :=
  ["eat".toList, "ate".toList, "tea".toList, "ea".toList, "at".toList,
   "e".toList, "a".toList, "t".toList]

/-- The ten word sequences the specification expects for the worked
example. -/
def eat_expected : List (List (List Char)) :=
  [["e".toList, "at".toList], ["ea".toList, "t".toList],
   ["at".toList, "e".toList], ["t".toList, "ea".toList],
   ["e".toList, "a".toList, "t".toList], ["e".toList, "t".toList, "a".toList],
   ["a".toList, "e".toList, "t".toList], ["a".toList, "t".toList, "e".toList],
   ["t".toList, "a".toList, "e".toList], ["t".toList, "e".toList, "a".toList]]

/-- Abbreviation for the length of a word viewed as a Python integer. -/
def lenInt (w : List Char) : Int := (w.length : Int)

/-- Abbreviation for the cast of a list of positions to integers. -/
def intsOf (l : List Nat) : List Int := l.map (fun (d : Nat) => (d : Int))

theorem div_to_integer_partition_def (divider : List Nat) (word_length : Nat) :
    div_to_integer_partition divider word_length
      = consecutive_diffs ((0 : Int) :: (intsOf divider ++ [(word_length : Int)])) := rfl

/-! Lemmas about `consecutive_diffs`. -/

theorem consecutive_diffs_scanl : ∀ (l : List Int) (a : Int),
    List.scanl (· + ·) a (consecutive_diffs (a :: l)) = a :: l
  | [], a => by simp [consecutive_diffs]
  | b :: l, a => by
    have ih := consecutive_diffs_scanl l b
    show a :: List.scanl (· + ·) (a + (b - a)) (consecutive_diffs (b :: l)) = a :: b :: l
    rw [show a + (b - a) = b by ring, ih]

theorem consecutive_diffs_sum : ∀ (l : List Int) (a b : Int),
    (consecutive_diffs (a :: (l ++ [b]))).sum = b - a
  | [], a, b => by simp [consecutive_diffs]
  | c :: l, a, b => by
    have ih := consecutive_diffs_sum l c b
    show ((c - a) :: consecutive_diffs (c :: (l ++ [b]))).sum = b - a
    rw [List.sum_cons, ih]; ring

theorem consecutive_diffs_pos : ∀ (l : List Int), l.Pairwise (· < ·) →
    ∀ x ∈ consecutive_diffs l, 0 < x
  | [], _, x, hx => by simp [consecutive_diffs] at hx
  | [_], _, x, hx => by simp [consecutive_diffs] at hx
  | a :: b :: rest, h, x, hx => by
    simp only [consecutive_diffs, List.mem_cons] at hx
    rcases hx with rfl | hx
    · have hab : a < b := (List.pairwise_cons.1 h).1 b (by simp)
      omega
    · exact consecutive_diffs_pos (b :: rest) (List.pairwise_cons.1 h).2 x hx

theorem consecutive_diffs_length : ∀ (a : Int) (l : List Int),
    (consecutive_diffs (a :: l)).length = l.length
  | _, [] => rfl
  | a, b :: l => by
    simp only [consecutive_diffs, List.length_cons, consecutive_diffs_length b l]

theorem div_to_integer_partition_length (d : List Nat) (L : Nat) :
    (div_to_integer_partition d L).length = d.length + 1 := by
  rw [div_to_integer_partition_def, consecutive_diffs_length]
  simp [intsOf]

/-- Round trip: the cumulative sums of the integer partition, starting
from 0, give back the augmented divider, so dropping the leading 0 and
the trailing word length recovers the divider. -/
theorem div_to_integer_partition_round_trip (d : List Nat) (L : Nat) :
    (((div_to_integer_partition d L).scanl (· + ·) 0).drop 1).dropLast = intsOf d := by
  rw [div_to_integer_partition_def, consecutive_diffs_scanl]
  simp

theorem div_to_integer_partition_injective {d d' : List Nat} {L : Nat}
    (h : div_to_integer_partition d L = div_to_integer_partition d' L) : d = d' := by
  have h2 : intsOf d = intsOf d' := by
    rw [← div_to_integer_partition_round_trip d L, h,
      div_to_integer_partition_round_trip]
  exact List.map_injective_iff.2 (fun a b hab => by exact_mod_cast hab) h2

/-! Lemmas about `slice_parts`. -/

theorem slice_parts_length (word : List Char) :
    ∀ (prev : Nat) (ds : List Nat), (slice_parts word prev ds).length = ds.length + 1
  | _, [] => rfl
  | prev, d :: ds => by
    simp only [slice_parts, List.length_cons, slice_parts_length word d ds]

theorem take_drop_chain (l : List Char) {prev d : Nat} (h : prev ≤ d) :
    (l.take d).drop prev ++ l.drop d = l.drop prev := by
  rw [List.drop_take, show List.drop d l = List.drop (prev + (d - prev)) l by
    congr 1; omega, ← List.drop_drop, List.take_append_drop]

theorem slice_parts_flatten : ∀ (ds : List Nat) (word : List Char) (prev : Nat),
    List.Chain (· ≤ ·) prev ds →
    (slice_parts word prev ds).flatten = word.drop prev
  | [], word, prev, _ => by simp [slice_parts]
  | d :: ds, word, prev, h => by
    rcases List.chain_cons.1 h with ⟨h1, h2⟩
    simp only [slice_parts, List.flatten_cons]
    rw [slice_parts_flatten ds word d h2, take_drop_chain word h1]

theorem slice_parts_lengths : ∀ (ds : List Nat) (word : List Char) (prev : Nat),
    List.Chain (· ≤ ·) prev ds → (∀ x ∈ ds, x ≤ word.length) → prev ≤ word.length →
    (slice_parts word prev ds).map lenInt
      = consecutive_diffs ((prev : Int) :: (intsOf ds ++ [(word.length : Int)]))
  | [], word, prev, _, _, hp => by
    simp only [slice_parts, List.map_cons, List.map_nil, intsOf, List.nil_append,
      consecutive_diffs, lenInt, List.length_drop]
    rw [Nat.cast_sub hp]
  | d :: ds, word, prev, h, hle, hp => by
    rcases List.chain_cons.1 h with ⟨h1, h2⟩
    have hd : d ≤ word.length := hle d (by simp)
    have ih := slice_parts_lengths ds word d h2 (fun x hx => hle x (by simp [hx])) hd
    simp only [slice_parts, List.map_cons, intsOf, List.cons_append,
      consecutive_diffs, lenInt, List.length_drop, List.length_take,
      List.cons.injEq] at ih ⊢
    refine ⟨by rw [show min d word.length = d by omega, Nat.cast_sub h1], ih⟩

theorem slice_parts_recover : ∀ (ds : List Nat) (wp : List (List Char))
    (pre : List Char) (L : Nat),
    (∀ x ∈ ds, pre.length < x) → ds.Pairwise (· < ·) →
    pre.length + wp.flatten.length = L →
    wp.map lenInt
      = consecutive_diffs ((pre.length : Int) :: (intsOf ds ++ [(L : Int)])) →
    slice_parts (pre ++ wp.flatten) pre.length ds = wp
  | [], wp, pre, L, _, _, htot, hmap => by
    simp only [intsOf, List.map_nil, List.nil_append, consecutive_diffs] at hmap
    cases wp with
    | nil => exact absurd hmap (by simp)
    | cons w wp' =>
      simp only [List.map_cons, List.cons.injEq] at hmap
      have hwp' : wp' = [] := List.map_eq_nil_iff.1 hmap.2
      subst hwp'
      simp [slice_parts, List.drop_left]
  | d :: ds, wp, pre, L, hlt, hpw, htot, hmap => by
    simp only [intsOf, List.map_cons, List.cons_append, consecutive_diffs] at hmap
    cases wp with
    | nil => exact absurd hmap (by simp)
    | cons w wp' =>
      simp only [List.map_cons, List.cons.injEq, lenInt] at hmap
      have hdpre : pre.length < d := hlt d (by simp)
      have hwlen : pre.length + w.length = d := by omega
      have hassoc : pre ++ (w :: wp').flatten = (pre ++ w) ++ wp'.flatten := by
        simp [List.append_assoc]
      have hlenpw : (pre ++ w).length = d := by
        rw [List.length_append]; omega
      simp only [slice_parts, List.cons.injEq]
      constructor
      · rw [hassoc, List.take_left' hlenpw, List.drop_left]
      · rw [hassoc, show d = (pre ++ w).length from hlenpw.symm]
        apply slice_parts_recover ds wp' (pre ++ w) L
        · intro x hx
          rw [hlenpw]
          exact (List.pairwise_cons.1 hpw).1 x hx
        · exact (List.pairwise_cons.1 hpw).2
        · simp only [List.flatten_cons, List.length_append] at htot ⊢
          omega
        · rw [hlenpw]
          exact hmap.2

/-! Lemmas about `pyProduct`. -/

theorem mem_pyProduct {α : Type} : ∀ {bins : List (List α)} {l : List α},
    l ∈ pyProduct bins ↔ List.Forall₂ (fun x b => x ∈ b) l bins
  | [], l => by
    simp only [pyProduct, List.mem_singleton, List.forall₂_nil_right_iff]
  | b :: bs, l => by
    simp only [pyProduct, List.mem_flatMap, List.mem_map]
    constructor
    · rintro ⟨x, hx, t, ht, rfl⟩
      exact List.Forall₂.cons hx (mem_pyProduct.1 ht)
    · intro h
      cases h with
      | cons hx ht => exact ⟨_, hx, _, mem_pyProduct.2 ht, rfl⟩

theorem pyProduct_nodup {α : Type} : ∀ (bins : List (List α)),
    (∀ b ∈ bins, b.Nodup) → (pyProduct bins).Nodup
  | [], _ => by simp [pyProduct]
  | b :: bs, h => by
    have hb : b.Nodup := h b (by simp)
    have hbs : (pyProduct bs).Nodup :=
      pyProduct_nodup bs (fun x hx => h x (by simp [hx]))
    simp only [pyProduct]
    rw [List.nodup_flatMap]
    refine ⟨fun x _ => hbs.map (fun t t' htt => by simpa using htt), ?_⟩
    refine hb.imp (fun {x y} hxy => ?_)
    intro l hl hl'
    simp only [List.mem_map] at hl hl'
    rcases hl with ⟨t, _, rfl⟩
    rcases hl' with ⟨t', _, ht'⟩
    exact hxy (List.cons.injEq .. ▸ ht'.symm).1

/-! Lemmas about the comparable form. -/

theorem perm_flatten {l₁ l₂ : List (List Char)} (h : l₁.Perm l₂) :
    l₁.flatten.Perm l₂.flatten := by
  induction h with
  | nil => exact List.Perm.refl _
  | cons x _ ih => simpa only [List.flatten_cons] using ih.append_left x
  | swap x y l =>
    simp only [List.flatten_cons, ← List.append_assoc]
    exact (List.perm_append_comm).append_right l.flatten
  | trans _ _ ih1 ih2 => exact ih1.trans ih2

theorem wp_to_comparable_form_eq_iff (s1 s2 : List (List Char)) :
    wp_to_comparable_form s1 = wp_to_comparable_form s2 ↔ s1.flatten.Perm s2.flatten := by
  unfold wp_to_comparable_form
  constructor
  · intro h
    have p1 := List.perm_insertionSort (· ≤ ·) s1.flatten
    have p2 := List.perm_insertionSort (· ≤ ·) s2.flatten
    rw [h] at p1
    exact p1.symm.trans p2
  · intro h
    exact List.eq_of_perm_of_sorted
      ((List.perm_insertionSort _ _).trans (h.trans (List.perm_insertionSort _ _).symm))
      (List.sorted_insertionSort _ _) (List.sorted_insertionSort _ _)

/-! Lemmas about the length buckets. -/

theorem mem_word_list_by_length {wls : List (List Char)} {j : Int} {w : List Char} :
    w ∈ word_list_by_length wls j ↔ w ∈ wls ∧ lenInt w = j := by
  simp [word_list_by_length, lenInt]

theorem forall₂_bucket {wls : List (List Char)} : ∀ {wp : List (List Char)}
    {ip : List Int},
    List.Forall₂ (fun w j => w ∈ word_list_by_length wls j) wp ip →
    (∀ w ∈ wp, w ∈ wls) ∧ wp.map lenInt = ip := by
  intro wp ip h
  induction h with
  | nil => simp
  | cons hw _ ih =>
    rcases mem_word_list_by_length.1 hw with ⟨hw1, hw2⟩
    refine ⟨?_, by simp [ih.2, hw2]⟩
    intro w hw'
    rcases List.mem_cons.1 hw' with rfl | hw'
    · exact hw1
    · exact ih.1 w hw'

theorem forall₂_bucket_of {wls : List (List Char)} {wp : List (List Char)}
    (h : ∀ w ∈ wp, w ∈ wls) :
    List.Forall₂ (fun w j => w ∈ word_list_by_length wls j) wp (wp.map lenInt) := by
  rw [List.forall₂_map_right_iff]
  rw [List.forall₂_same]
  intro w hw
  exact mem_word_list_by_length.2 ⟨h w hw, rfl⟩

/-! Lemmas about the divider enumeration. -/

theorem mem_word_dividers {L : Nat} {d : List Nat} :
    d ∈ word_dividers L ↔ d.length < L ∧ d.Sublist (List.range' 1 (L - 1)) := by
  simp only [word_dividers, k_divider_sets, List.mem_flatten, List.mem_map]
  constructor
  · rintro ⟨_, ⟨k, hk, rfl⟩, hd⟩
    rcases List.mem_sublistsLen.1 hd with ⟨hsub, hlen⟩
    exact ⟨by rw [hlen]; exact List.mem_range.1 hk, hsub⟩
  · rintro ⟨hlen, hsub⟩
    exact ⟨_, ⟨d.length, List.mem_range.2 hlen, rfl⟩,
      List.mem_sublistsLen.2 ⟨hsub, rfl⟩⟩

theorem word_dividers_valid {L : Nat} {d : List Nat} (hd : d ∈ word_dividers L) :
    d.Pairwise (· < ·) ∧ ∀ x ∈ d, 0 < x ∧ x < L := by
  rcases mem_word_dividers.1 hd with ⟨_, hsub⟩
  refine ⟨List.Pairwise.sublist hsub (List.pairwise_lt_range' 1 (L - 1)),
    fun x hx => ?_⟩
  have := List.mem_range'_1.1 (hsub.subset hx)
  omega

theorem word_dividers_nodup (L : Nat) : (word_dividers L).Nodup := by
  rw [word_dividers, k_divider_sets, ← List.flatMap_def, List.nodup_flatMap]
  constructor
  · intro k _
    exact List.nodup_sublistsLen k (List.nodup_range' 1 (L - 1))
  · refine (List.nodup_range L).imp (fun {k k'} hkk => ?_)
    intro d hd hd'
    exact hkk ((List.mem_sublistsLen.1 hd).2.symm.trans (List.mem_sublistsLen.1 hd').2)

theorem list_range_map_sum (f : Nat → Nat) : ∀ (n : Nat),
    ((List.range n).map f).sum = ∑ i ∈ Finset.range n, f i
  | 0 => by simp
  | n + 1 => by
    rw [List.range_succ, Finset.sum_range_succ, List.map_append, List.sum_append,
      list_range_map_sum f n]
    simp

theorem word_dividers_count {L : Nat} (h : 1 ≤ L) :
    (word_dividers L).length = 2 ^ (L - 1) := by
  rw [word_dividers, List.length_flatten, k_divider_sets, List.map_map]
  have hmap : (List.map (List.length ∘ fun k => List.sublistsLen k
      (List.range' 1 (L - 1))) (List.range L))
      = (List.range L).map (fun k => Nat.choose (L - 1) k) := by
    refine List.map_congr_left (fun k _ => ?_)
    simp [List.length_sublistsLen, List.length_range']
  rw [hmap, list_range_map_sum]
  have hL : L = (L - 1) + 1 := by omega
  rw [hL, Nat.add_sub_cancel]
  exact Nat.sum_range_choose (L - 1)

/-! Lemmas about the reduced word list. -/

theorem mem_arrangements {word s : List Char} {i : Nat} :
    s ∈ arrangements word i ↔ s.length = i ∧ s.Subperm word := by
  simp only [arrangements, List.mem_flatMap, List.mem_sublistsLen,
    List.mem_permutations']
  constructor
  · rintro ⟨t, ⟨hsub, hlen⟩, hperm⟩
    exact ⟨hperm.length_eq.trans hlen, t, hperm.symm, hsub⟩
  · rintro ⟨hlen, t, htperm, hsub⟩
    exact ⟨t, ⟨hsub, htperm.length_eq.trans hlen⟩, htperm.symm⟩

theorem mem_reduced_word_list {word : List Char} {word_list : List (List Char)}
    {s : List Char} :
    s ∈ reduced_word_list word word_list ↔
      1 ≤ s.length ∧ s.length ≤ word.length - 1 ∧ s ∈ word_list ∧ s.Subperm word := by
  simp only [reduced_word_list, List.mem_flatMap, List.mem_range'_1, List.mem_dedup,
    List.mem_filter, decide_eq_true_eq, mem_arrangements]
  constructor
  · rintro ⟨i, ⟨hi1, hi2⟩, ⟨⟨rfl, hsp⟩, hwl⟩⟩
    exact ⟨hi1, by omega, hwl, hsp⟩
  · rintro ⟨h1, h2, hwl, hsp⟩
    exact ⟨s.length, ⟨h1, by omega⟩, ⟨⟨rfl, hsp⟩, hwl⟩⟩

theorem reduced_word_list_length_bounds {word : List Char}
    {word_list : List (List Char)} {s : List Char}
    (h : s ∈ reduced_word_list word word_list) :
    1 ≤ s.length ∧ s.length < word.length := by
  rcases mem_reduced_word_list.1 h with ⟨h1, h2, -, -⟩
  omega

theorem reduced_word_list_nodup (word : List Char) (word_list : List (List Char)) :
    (reduced_word_list word word_list).Nodup := by
  rw [reduced_word_list, List.nodup_flatMap]
  constructor
  · intro i _
    exact List.nodup_dedup _
  · refine ((List.nodup_range' 1 (word.length - 1)).imp (fun {i i'} hii => ?_))
    intro s hs hs'
    rw [List.mem_dedup, List.mem_filter] at hs hs'
    exact hii ((mem_arrangements.1 hs.1).1.symm.trans (mem_arrangements.1 hs'.1).1)

/-! Membership characterizations of the two strategies (sequential). -/

theorem mem_anagrams_word_centric {word : List Char} {wls : List (List Char)}
    {divs : List (List Nat)} {wp : List (List Char)} :
    wp ∈ anagrams_word_centric word wls divs ↔
      ∃ p, p.Perm word ∧ ∃ d ∈ divs, wp = slice_parts p 0 d ∧ ∀ w ∈ wp, w ∈ wls := by
  simp only [anagrams_word_centric, ordered_word_anagrams,
    dividers_to_word_partitions, List.mem_flatMap, List.mem_permutations',
    List.mem_filter, List.mem_map, List.all_eq_true, decide_eq_true_eq]
  constructor
  · rintro ⟨p, hp, ⟨d, hd, rfl⟩, hall⟩
    exact ⟨p, hp, d, hd, rfl, hall⟩
  · rintro ⟨p, hp, d, hd, rfl, hall⟩
    exact ⟨p, hp, ⟨d, hd, rfl⟩, hall⟩

theorem mem_anagrams_word_list_centric {word : List Char} {wls : List (List Char)}
    {divs : List (List Nat)} {wp : List (List Char)} :
    wp ∈ anagrams_word_list_centric word wls divs ↔
      ∃ d ∈ divs,
        List.Forall₂ (fun w j => w ∈ word_list_by_length wls j) wp
          (div_to_integer_partition d word.length) ∧
        wp_to_comparable_form wp = wp_to_comparable_form [word] := by
  simp only [anagrams_word_list_centric, div_to_anagrams, ip_to_word_partitions,
    List.mem_flatMap, List.mem_filter, decide_eq_true_eq, mem_pyProduct,
    List.forall₂_map_right_iff]

/-- Bridge: for one structurally valid divider, the word partitions the
word-centric strategy accepts are exactly the word partitions the
dictionary-centric strategy accepts. -/
theorem strategy_bridge {word : List Char} {wls : List (List Char)} {d : List Nat}
    (hpw : d.Pairwise (· < ·)) (hrange : ∀ x ∈ d, 0 < x ∧ x < word.length)
    {wp : List (List Char)} :
    (∃ p, p.Perm word ∧ wp = slice_parts p 0 d ∧ ∀ w ∈ wp, w ∈ wls) ↔
      (List.Forall₂ (fun w j => w ∈ word_list_by_length wls j) wp
          (div_to_integer_partition d word.length) ∧
        wp_to_comparable_form wp = wp_to_comparable_form [word]) := by
  have hchain : List.Chain (· ≤ ·) 0 d := by
    rw [List.chain_iff_pairwise, List.pairwise_cons]
    exact ⟨fun x hx => Nat.le_of_lt (hrange x hx).1, hpw.imp Nat.le_of_lt⟩
  constructor
  · rintro ⟨p, hp, rfl, hin⟩
    have hplen : p.length = word.length := hp.length_eq
    have hlens : (slice_parts p 0 d).map lenInt
        = div_to_integer_partition d word.length := by
      rw [slice_parts_lengths d p 0 hchain
        (fun x hx => by rw [hplen]; exact Nat.le_of_lt (hrange x hx).2)
        (Nat.zero_le _), div_to_integer_partition_def, hplen]
      norm_num
    refine ⟨hlens ▸ forall₂_bucket_of hin, ?_⟩
    rw [wp_to_comparable_form_eq_iff]
    rw [slice_parts_flatten d p 0 hchain]
    simpa using hp
  · rintro ⟨hf, hcf⟩
    rcases forall₂_bucket hf with ⟨hin, hlens⟩
    have hperm : wp.flatten.Perm word := by
      have := (wp_to_comparable_form_eq_iff wp [word]).1 hcf
      simpa using this
    refine ⟨wp.flatten, hperm, ?_, hin⟩
    have := slice_parts_recover d wp [] word.length
      (fun x hx => (hrange x hx).1) hpw (by simpa using hperm.length_eq)
      (by rw [hlens, div_to_integer_partition_def]; norm_num)
    simpa using this.symm

theorem div_to_anagrams_profile {d : List Nat} {wls : List (List Char)} {L : Nat}
    {cf : List Char} {wp : List (List Char)}
    (h : wp ∈ div_to_anagrams d (word_list_by_length wls) L cf) :
    wp.map lenInt = div_to_integer_partition d L := by
  simp only [div_to_anagrams, ip_to_word_partitions, List.mem_filter,
    mem_pyProduct, List.forall₂_map_right_iff] at h
  exact (forall₂_bucket h.1).2

/-! The claims. -/

/-- C1: for every word and every dictionary, the word-centric and
dictionary-centric strategies, run sequentially on the same reduced word
list and divider set, return the same set of word sequences (order of
production and multiplicity may differ). -/
theorem anagram_strategies_set_equivalent (word : List Char)
    (word_list : List (List Char)) (wp : List (List Char)) :
    wp ∈ anagrams_word_centric word (reduced_word_list word word_list)
        (word_dividers word.length) ↔
      wp ∈ anagrams_word_list_centric word (reduced_word_list word word_list)
        (word_dividers word.length) := by
  rw [mem_anagrams_word_centric, mem_anagrams_word_list_centric]
  constructor
  · rintro ⟨p, hp, d, hd, rfl, hin⟩
    rcases word_dividers_valid hd with ⟨hpw, hrange⟩
    exact ⟨d, hd, (strategy_bridge hpw hrange).1 ⟨p, hp, rfl, hin⟩⟩
  · rintro ⟨d, hd, hyp⟩
    rcases word_dividers_valid hd with ⟨hpw, hrange⟩
    rcases (strategy_bridge hpw hrange).2 hyp with ⟨p, hp, heq, hin⟩
    exact ⟨p, hp, d, hd, heq, hin⟩

/-- C2: under either strategy, `word_anagrams` never returns a
single-element word sequence: the reduced word list contains no entry
whose length equals the length of the (stripped) word, so the 0-divider
partition can never be filled. -/
theorem word_anagrams_never_single_word (word : List Char)
    (word_list : List (List Char)) (method : String) (wp : List (List Char))
    (h : wp ∈ (word_anagrams word word_list method).getD []) : wp.length ≠ 1 := by
  intro hlen
  simp only [word_anagrams] at h
  by_cases h1 : method = "word_centric"
  · rw [if_pos h1, Option.getD_some] at h
    rcases mem_anagrams_word_centric.1 h with ⟨p, hp, d, _, rfl, hin⟩
    rw [slice_parts_length] at hlen
    have hd : d = [] := List.length_eq_zero.1 (by omega)
    subst hd
    have hmem : p ∈ reduced_word_list (strip_whitespace word) word_list := by
      have := hin (p.drop 0) (by simp [slice_parts])
      simpa using this
    have := (reduced_word_list_length_bounds hmem).2
    rw [hp.length_eq] at this
    omega
  · rw [if_neg h1] at h
    by_cases h2 : method = "word_list_centric"
    · rw [if_pos h2, Option.getD_some] at h
      rcases mem_anagrams_word_list_centric.1 h with ⟨d, _, hf, -⟩
      have hlen2 := hf.length_eq
      rw [hlen, div_to_integer_partition_length] at hlen2
      have hd : d = [] := List.length_eq_zero.1 (by omega)
      subst hd
      rcases forall₂_bucket hf with ⟨hin, hmap⟩
      rw [div_to_integer_partition_def] at hmap
      simp only [intsOf, List.map_nil, List.nil_append, consecutive_diffs,
        sub_zero] at hmap
      cases wp with
      | nil => simp at hlen
      | cons w wp' =>
        have hw := hin w (by simp)
        have hb := (reduced_word_list_length_bounds hw).2
        simp only [List.map_cons, List.cons.injEq, lenInt] at hmap
        obtain ⟨hm, -⟩ := hmap
        omega
    · rw [if_neg h2, Option.getD_none] at h
      simp at h

/-- Witness for C2 on a member of the worked example output. -/
theorem word_anagrams_never_single_word_witness :
    (["e".toList, "at".toList] ∈
        (word_anagrams eat_word eat_dict "word_centric").getD []) ∧
    (["e".toList, "at".toList] : List (List Char)).length ≠ 1 :=
  ⟨by decide, word_anagrams_never_single_word eat_word eat_dict "word_centric"
      ["e".toList, "at".toList] (by decide)⟩

/-- C3: on the worked example, word `eat` and the eight-entry
dictionary, both strategies return exactly the ten expected word
sequences, as a set. -/
theorem word_anagrams_worked_example_eat :
    (word_anagrams eat_word eat_dict "word_centric").isSome = true ∧
    (word_anagrams eat_word eat_dict "word_list_centric").isSome = true ∧
    ∀ wp : List (List Char),
      (wp ∈ (word_anagrams eat_word eat_dict "word_centric").getD [] ↔
        wp ∈ eat_expected) ∧
      (wp ∈ (word_anagrams eat_word eat_dict "word_list_centric").getD [] ↔
        wp ∈ eat_expected) := by
  refine ⟨by decide, by decide, fun wp => ?_⟩
  have h1 : ((word_anagrams eat_word eat_dict "word_centric").getD []).toFinset
      = eat_expected.toFinset := by decide
  have h2 : ((word_anagrams eat_word eat_dict "word_list_centric").getD []).toFinset
      = eat_expected.toFinset := by decide
  constructor
  · rw [← List.mem_toFinset, h1, List.mem_toFinset]
  · rw [← List.mem_toFinset, h2, List.mem_toFinset]

/-- C4: for every word length L at least 1, the divider enumeration
produces exactly 2 ^ (L - 1) pairwise distinct tuples, each strictly
increasing with entries in the open interval (0, L). -/
theorem word_dividers_count_distinct_valid (L : Nat) (h : 1 ≤ L) :
    (word_dividers L).length = 2 ^ (L - 1) ∧ (word_dividers L).Nodup ∧
      ∀ d ∈ word_dividers L, d.Pairwise (· < ·) ∧ ∀ x ∈ d, 0 < x ∧ x < L :=
  ⟨word_dividers_count h, word_dividers_nodup L, fun _ hd => word_dividers_valid hd⟩

/-- Witness for C4 at L = 3. -/
theorem word_dividers_count_distinct_valid_witness :
    1 ≤ 3 ∧ ((word_dividers 3).length = 2 ^ (3 - 1) ∧ (word_dividers 3).Nodup ∧
      ∀ d ∈ word_dividers 3, d.Pairwise (· < ·) ∧ ∀ x ∈ d, 0 < x ∧ x < 3) :=
  ⟨by decide, word_dividers_count_distinct_valid 3 (by decide)⟩

/-- C5, counterexample: at length L = 0 the empty divider vacuously
satisfies the stated hypotheses, yet the returned partition is the
one-element tuple (0,), which is not a tuple of positive integers. -/
theorem div_to_integer_partition_zero_length_not_positive :
    List.Pairwise (· < ·) ([] : List Nat) ∧ (∀ x ∈ ([] : List Nat), 0 < x ∧ x < 0) ∧
      div_to_integer_partition [] 0 = [0] ∧
      ¬ (∀ p ∈ div_to_integer_partition [] 0, (0 : Int) < p) := by decide

/-- C5, amended: for every length L at least 1 and every strictly
increasing divider with entries in the open interval (0, L), the
integer partition consists of positive integers, sums to L, and the
divider is recovered by the cumulative prefix sums of the partition
(dropping the leading 0 and the final sum L). -/
theorem div_to_integer_partition_partition_laws (L : Nat) (d : List Nat)
    (hL : 1 ≤ L) (hpw : d.Pairwise (· < ·)) (hrange : ∀ x ∈ d, 0 < x ∧ x < L) :
    (∀ p ∈ div_to_integer_partition d L, 0 < p) ∧
      (div_to_integer_partition d L).sum = (L : Int) ∧
      (((div_to_integer_partition d L).scanl (· + ·) 0).drop 1).dropLast
        = intsOf d := by
  refine ⟨?_, ?_, div_to_integer_partition_round_trip d L⟩
  · have hp : List.Pairwise (· < ·) ((0 : Int) :: (intsOf d ++ [(L : Int)])) := by
      rw [List.pairwise_cons]
      constructor
      · intro y hy
        rcases List.mem_append.1 hy with hy | hy
        · rcases List.mem_map.1 hy with ⟨x, hx, rfl⟩
          exact_mod_cast (hrange x hx).1
        · rw [List.mem_singleton.1 hy]
          exact_mod_cast hL
      · rw [List.pairwise_append]
        refine ⟨?_, List.pairwise_singleton _ _, ?_⟩
        · rw [intsOf, List.pairwise_map]
          exact hpw.imp (fun h => by exact_mod_cast h)
        · intro a ha b hb
          rcases List.mem_map.1 ha with ⟨x, hx, rfl⟩
          rw [List.mem_singleton.1 hb]
          exact_mod_cast (hrange x hx).2
    rw [div_to_integer_partition_def]
    exact consecutive_diffs_pos _ hp
  · rw [div_to_integer_partition_def]
    have := consecutive_diffs_sum (intsOf d) 0 (L : Int)
    rw [this]
    ring

/-- Witness for the amended C5 at L = 6, d = (1, 3). -/
theorem div_to_integer_partition_partition_laws_witness :
    1 ≤ 6 ∧ List.Pairwise (· < ·) ([1, 3] : List Nat) ∧
      (∀ x ∈ ([1, 3] : List Nat), 0 < x ∧ x < 6) ∧
      ((∀ p ∈ div_to_integer_partition [1, 3] 6, 0 < p) ∧
        (div_to_integer_partition [1, 3] 6).sum = (6 : Int) ∧
        (((div_to_integer_partition [1, 3] 6).scanl (· + ·) 0).drop 1).dropLast
          = intsOf [1, 3]) :=
  ⟨by decide, by decide, by decide,
    div_to_integer_partition_partition_laws 6 [1, 3] (by decide) (by decide)
      (by decide)⟩

/-- C6: the comparable form is invariant under reordering of the
elements of a word sequence and under reordering of the characters
inside the elements, and two word sequences have equal comparable form
exactly when their character multisets agree. -/
theorem wp_to_comparable_form_canonical (s1 s2 : List (List Char)) :
    (s1.Perm s2 → wp_to_comparable_form s1 = wp_to_comparable_form s2) ∧
    (List.Forall₂ (fun a b => a.Perm b) s1 s2 →
      wp_to_comparable_form s1 = wp_to_comparable_form s2) ∧
    (wp_to_comparable_form s1 = wp_to_comparable_form s2 ↔
      (s1.flatten : Multiset Char) = (s2.flatten : Multiset Char)) := by
  refine ⟨fun h => ?_, fun h => ?_, ?_⟩
  · exact (wp_to_comparable_form_eq_iff s1 s2).2 (perm_flatten h)
  · exact (wp_to_comparable_form_eq_iff s1 s2).2 (List.Perm.flatten_congr h)
  · rw [wp_to_comparable_form_eq_iff, Multiset.coe_eq_coe]

/-- Witness for C6 on concrete word sequences. -/
theorem wp_to_comparable_form_canonical_witness :
    wp_to_comparable_form [['a', 'b'], ['c']]
        = wp_to_comparable_form [['c'], ['a', 'b']] ∧
    wp_to_comparable_form [['a', 'b'], ['c']]
        = wp_to_comparable_form [['b', 'a'], ['c']] ∧
    (([['a', 'b']] : List (List Char)).flatten : Multiset Char)
        = (([['b', 'a']] : List (List Char)).flatten : Multiset Char) :=
  ⟨(wp_to_comparable_form_canonical [['a', 'b'], ['c']] [['c'], ['a', 'b']]).1
      (by decide),
   (wp_to_comparable_form_canonical [['a', 'b'], ['c']] [['b', 'a'], ['c']]).2.1
      (List.Forall₂.cons (by decide) (List.Forall₂.cons (by decide)
        List.Forall₂.nil)),
   (wp_to_comparable_form_canonical [['a', 'b']] [['b', 'a']]).2.2.1 (by decide)⟩

/-- C7: the reduced word list holds exactly the dictionary entries whose
length lies between 1 and L - 1 and whose letter multiset is contained
in the letter multiset of the word; entries of length 0, of length L,
or longer never appear. -/
theorem reduced_word_list_characterization (word : List Char)
    (word_list : List (List Char)) (s : List Char) :
    s ∈ reduced_word_list word word_list ↔
      1 ≤ s.length ∧ s.length ≤ word.length - 1 ∧ s ∈ word_list ∧
        (s : Multiset Char) ≤ (word : Multiset Char) := by
  rw [Multiset.coe_le]
  exact mem_reduced_word_list

/-- C8: an unrecognized method selector makes `word_anagrams` fail (the
`KeyError` of the source, modelled as `none`, so no partial result is
returned), while either recognized selector succeeds. -/
theorem word_anagrams_method_selector (word : List Char)
    (word_list : List (List Char)) (method : String) :
    (method ≠ "word_centric" → method ≠ "word_list_centric" →
      word_anagrams word word_list method = none) ∧
    (method = "word_centric" ∨ method = "word_list_centric" →
      (word_anagrams word word_list method).isSome = true) := by
  constructor
  · intro h1 h2
    simp [word_anagrams, h1, h2]
  · rintro (rfl | rfl) <;> simp [word_anagrams]

/-- Witness for C8 on a bogus selector and a recognized selector. -/
theorem word_anagrams_method_selector_witness :
    word_anagrams ['a'] [] "bogus" = none ∧
    (word_anagrams ['a'] [] "word_list_centric").isSome = true :=
  ⟨(word_anagrams_method_selector ['a'] [] "bogus").1 (by decide) (by decide),
   (word_anagrams_method_selector ['a'] [] "word_list_centric").2 (Or.inr rfl)⟩

/-- C9: a word consisting only of whitespace characters (in particular
the empty word) normalizes to the empty word, for which `word_anagrams`
returns the empty list under either method and no error. -/
theorem word_anagrams_whitespace_word_empty (word : List Char)
    (word_list : List (List Char)) (h : ∀ c ∈ word, is_py_space c = true) :
    word_anagrams word word_list "word_centric" = some [] ∧
    word_anagrams word word_list "word_list_centric" = some [] := by
  have hw : strip_whitespace word = [] := by
    rw [strip_whitespace, List.filter_eq_nil_iff]
    intro c hc
    simp [h c hc]
  refine ⟨?_, ?_⟩ <;>
    simp [word_anagrams, hw, anagrams_word_centric, anagrams_word_list_centric,
      ordered_word_anagrams, dividers_to_word_partitions, word_dividers,
      k_divider_sets]

/-- Witness for C9 on a two-character whitespace word. -/
theorem word_anagrams_whitespace_word_empty_witness :
    word_anagrams [' ', '\t'] [['a']] "word_centric" = some [] ∧
    word_anagrams [' ', '\t'] [['a']] "word_list_centric" = some [] :=
  word_anagrams_whitespace_word_empty [' ', '\t'] [['a']] (by decide)

/-- C10: run on the reduced word list and the divider enumeration of the
program, the sequential dictionary-centric strategy returns a list
without duplicate word sequences. -/
theorem anagrams_word_list_centric_nodup (word : List Char)
    (word_list : List (List Char)) :
    (anagrams_word_list_centric word (reduced_word_list word word_list)
      (word_dividers word.length)).Nodup := by
  rw [anagrams_word_list_centric, List.nodup_flatMap]
  constructor
  · intro d _
    apply List.Nodup.filter
    rw [ip_to_word_partitions]
    apply pyProduct_nodup
    intro b hb
    rcases List.mem_map.1 hb with ⟨j, _, rfl⟩
    exact (reduced_word_list_nodup word word_list).filter _
  · refine (word_dividers_nodup word.length).imp (fun {d d'} hne => ?_)
    intro wp h1 h2
    exact hne (div_to_integer_partition_injective
      ((div_to_anagrams_profile h1).symm.trans (div_to_anagrams_profile h2)))

end Anagrams
